import Mathlib

/-!
Shallow embedding of the discovery/registration core of the
`bevy_server_browser` crate (`src/lib.rs` and `src/server_metadata.rs`).

Conventions:
* Rust strings are embedded as their UTF-8 byte sequences (`List Nat`)
  where the code operates on bytes (`validate_name`, service-type
  construction), and as Lean `String` elsewhere.
* `HashMap<String, String>` values compared with `==` are embedded as
  `Finmap` (whose propositional equality coincides with the hash map's
  content equality); `HashSet<IpAddr>` is embedded as `Finset String`.
* The `StableHashMap` containers that are iterated and mutated in place
  are embedded as association lists in a deterministic order.
* A Rust `panic!`/`assert!` failure is a `none` result.
-/

namespace BevyServerBrowser

/-- UTF-8 bytes of an ASCII string literal (every literal that appears in
the embedded code is ASCII, where codepoint = byte). -/
def asciiBytes (s : String) : List Nat := s.data.map Char.toNat

/-- `u8::is_ascii_alphanumeric`. -/
def isAsciiAlphanumeric (b : Nat) : Bool :=
  (0x30 ≤ b && b ≤ 0x39) || (0x41 ≤ b && b ≤ 0x5A) || (0x61 ≤ b && b ≤ 0x7A)

/-- `u8::is_ascii_alphabetic`. -/
def isAsciiAlphabetic (b : Nat) : Bool :=
  (0x41 ≤ b && b ≤ 0x5A) || (0x61 ≤ b && b ≤ 0x7A)

/-- The normalization step of `validate_name` (src/lib.rs:319):
`name.replace('_', "-")` at the byte level (both characters are ASCII,
so the replacement is byte-for-byte). -/
def normalizeName (name : List Nat) : List Nat :=
  name.map fun b => if b = 0x5F then 0x2D else b

/-- `validate_name` from src/lib.rs:318-352.  The seven `assert!`s of the
source, in source order, each become a `none` result (the function panics
and returns no value); on success the normalized name is returned. -/
def validate_name (name : List Nat) : Option (List Nat) :=
  let name := normalizeName name
  if name.head? = some 0x2D then none
  else if name.getLast? = some 0x2D then none
  else if [0x2D, 0x2D] <:+: name then none
  else if 15 < name.length then none
  else if name.length = 0 then none
  else if name.all (fun b => isAsciiAlphanumeric b || b = 0x2D) then
    if name.any isAsciiAlphabetic then some name else none
  else none

theorem normalizeName_idem (s : List Nat) :
    normalizeName (normalizeName s) = normalizeName s := by
  unfold normalizeName
  rw [List.map_map]
  refine List.map_congr_left ?_
  intro a _
  by_cases hb : a = 0x5F <;> simp [Function.comp, hb]

theorem normalizeName_length (s : List Nat) :
    (normalizeName s).length = s.length := by
  simp [normalizeName]

/-- Success characterization of `validate_name`: the result is `some t`
exactly when `t` is the normalized input and every check passes. -/
theorem validate_name_eq_some_iff (s t : List Nat) :
    validate_name s = some t ↔
      t = normalizeName s ∧
      (normalizeName s).head? ≠ some 0x2D ∧
      (normalizeName s).getLast? ≠ some 0x2D ∧
      ¬ [0x2D, 0x2D] <:+: normalizeName s ∧
      ¬ 15 < (normalizeName s).length ∧
      (normalizeName s).length ≠ 0 ∧
      (normalizeName s).all (fun b => isAsciiAlphanumeric b || b = 0x2D) = true ∧
      (normalizeName s).any isAsciiAlphabetic = true := by
  unfold validate_name
  dsimp only
  split_ifs with h1 h2 h3 h4 h5 h6 h7
  · exact iff_of_false (by simp) fun h => h.2.1 h1
  · exact iff_of_false (by simp) fun h => h.2.2.1 h2
  · exact iff_of_false (by simp) fun h => h.2.2.2.1 h3
  · exact iff_of_false (by simp) fun h => h.2.2.2.2.1 h4
  · exact iff_of_false (by simp) fun h => h.2.2.2.2.2.1 h5
  · constructor
    · intro h
      exact ⟨(Option.some.inj h).symm, h1, h2, h3, h4, h5, h6, h7⟩
    · intro h
      rw [h.1]
  · exact iff_of_false (by simp) fun h => h7 h.2.2.2.2.2.2.2
  · exact iff_of_false (by simp) fun h => h6 h.2.2.2.2.2.2.1

/-! ### Association-list embedding of the hash-map containers

`StableHashMap` (a deterministic hashbrown `HashMap`) is embedded as an
association list in a deterministic order; `get`, occupied-entry `insert`,
vacant-entry `insert` (append) and `remove` are the operations the source
uses. -/

/-- `HashMap::get`. -/
def getEntry {β : Type} : List (String × β) → String → Option β
  | [], _ => none
  | (k', v) :: rest, k => if k' = k then some v else getEntry rest k

/-- Occupied-entry `insert`: replace the stored value in place. -/
def replaceEntry {β : Type} : List (String × β) → String → β → List (String × β)
  | [], _, _ => []
  | (k', v') :: rest, k, v =>
      if k' = k then (k', v) :: rest else (k', v') :: replaceEntry rest k v

/-- `HashMap::remove`. -/
def removeEntry {β : Type} : List (String × β) → String → List (String × β)
  | [], _ => []
  | (k', v') :: rest, k => if k' = k then rest else (k', v') :: removeEntry rest k

/-- `entry_ref(key).insert(value)`: replace when occupied, append when
vacant (used by `ServerMetadata::set`). -/
def setEntry {β : Type} : List (String × β) → String → β → List (String × β)
  | [], k, v => [(k, v)]
  | (k', v') :: rest, k, v =>
      if k' = k then (k', v) :: rest else (k', v') :: setEntry rest k v

theorem getEntry_replaceEntry_self {β : Type} (m : List (String × β)) (k : String)
    (v w : β) (h : getEntry m k = some w) :
    getEntry (replaceEntry m k v) k = some v := by
  induction m with
  | nil => simp [getEntry] at h
  | cons kv rest ih =>
    obtain ⟨k', v'⟩ := kv
    by_cases hk : k' = k
    · simp [getEntry, replaceEntry, hk]
    · simp only [getEntry, replaceEntry, if_neg hk] at h ⊢
      exact ih h

theorem getEntry_append_of_none {β : Type} (m l : List (String × β)) (k : String)
    (h : getEntry m k = none) :
    getEntry (m ++ l) k = getEntry l k := by
  induction m with
  | nil => simp
  | cons kv rest ih =>
    obtain ⟨k', v'⟩ := kv
    by_cases hk : k' = k
    · simp [getEntry, hk] at h
    · simp only [getEntry, if_neg hk, List.cons_append] at h ⊢
      exact ih h

theorem getEntry_eq_some_mem {β : Type} {m : List (String × β)} {k : String} {v : β}
    (h : getEntry m k = some v) : (k, v) ∈ m := by
  induction m with
  | nil => simp [getEntry] at h
  | cons kv rest ih =>
    obtain ⟨k', v'⟩ := kv
    by_cases hk : k' = k
    · simp only [getEntry, if_pos hk] at h
      subst hk
      simp [Option.some.inj h]
    · simp only [getEntry, if_neg hk] at h
      exact List.mem_cons_of_mem _ (ih h)

theorem getEntry_isSome_iff_mem_keys {β : Type} (m : List (String × β)) (k : String) :
    (getEntry m k).isSome = true ↔ k ∈ m.map Prod.fst := by
  induction m with
  | nil => simp [getEntry]
  | cons kv rest ih =>
    obtain ⟨k', v'⟩ := kv
    by_cases hk : k' = k
    · simp [getEntry, hk]
    · simp only [getEntry, if_neg hk, List.map_cons, List.mem_cons]
      rw [ih]
      constructor
      · exact Or.inr
      · rintro (h | h)
        · exact absurd h.symm hk
        · exact h

theorem getEntry_eq_some_of_mem {β : Type} {m : List (String × β)} {k : String} {v : β}
    (hnd : (m.map Prod.fst).Nodup) (h : (k, v) ∈ m) : getEntry m k = some v := by
  induction m with
  | nil => simp at h
  | cons kv rest ih =>
    obtain ⟨k', v'⟩ := kv
    simp only [List.map_cons, List.nodup_cons] at hnd
    rcases List.mem_cons.mp h with h1 | h1
    · obtain ⟨rfl, rfl⟩ := Prod.mk.inj h1.symm
      simp [getEntry]
    · have hk : k' ≠ k := by
        rintro rfl
        exact hnd.1 (List.mem_map.mpr ⟨(k', v), h1, rfl⟩)
      simp only [getEntry, if_neg hk]
      exact ih hnd.2 h1

/-! ### The peer reconciliation engine (`update_discovered_servers`) -/

/-- `str::strip_suffix`: `some` of the string with `suffix` removed when the
string ends with `suffix`, `none` otherwise. -/
def strip_suffix (s suffix : String) : Option String :=
  if suffix.data.isSuffixOf s.data then
    some (String.mk (s.data.take (s.data.length - suffix.data.length)))
  else none

/-- The fields of an `mdns_sd::ServiceInfo` that `update_discovered_servers`
reads: fully-qualified instance name, hostname, port, address set and TXT
properties (in iteration order).  IP addresses are abstracted to strings. -/
structure ResolvedInfo where
  fullname : String
  hostname : String
  port : Nat
  addresses : Finset String
  properties : List (String × String)
  deriving DecidableEq

/-- The `mdns_sd::ServiceEvent` variants the engine matches on; every other
variant is folded into `other` (the code ignores them). -/
inductive ServiceEvent
  | serviceResolved (info : ResolvedInfo)
  | serviceRemoved (serviceType fullname : String)
  | other
  deriving DecidableEq

/-- `DiscoveredServer` (src/lib.rs:44-59).  The `metadata` field is a
`HashMap<String, String>`, embedded as a `Finmap` so that Lean equality
coincides with the hash map's content equality used by the derived
`PartialEq`; `addresses` is a `HashSet<IpAddr>` embedded as a `Finset`. -/
structure DiscoveredServer where
  hostname : String
  port : Nat
  addresses : Finset String
  metadata : Finmap fun _ : String => String
  deriving DecidableEq

/-- The `DiscoveredServerList` backing map (`StableHashMap<String,
DiscoveredServer>`), as an association list. -/
abbrev ServerMap := List (String × DiscoveredServer)

/-- The `DiscoveredServer` built from a `ServiceResolved(info)` event
(src/lib.rs:202-218): the display hostname is the event hostname with one
trailing `".local."` stripped when present; the metadata map is built by
inserting every TXT property in iteration order. -/
def deriveServer (info : ResolvedInfo) : DiscoveredServer where
  hostname := (strip_suffix info.hostname ".local.").getD info.hostname
  port := info.port
  addresses := info.addresses
  metadata := info.properties.foldl (fun m kv => m.insert kv.1 kv.2) ∅

/-- One iteration of the drain loop of `update_discovered_servers`
(src/lib.rs:198-239).  The accumulator is the server map together with the
local `changed` flag.  A `ServiceRemoved` event sets the flag
unconditionally (src/lib.rs:233-236); a `ServiceResolved` event inserts
when the key is vacant, overwrites only when the derived record differs
from the stored one, and leaves both map and flag untouched otherwise. -/
def applyEvent (acc : ServerMap × Bool) : ServiceEvent → ServerMap × Bool
  | ServiceEvent.serviceResolved info =>
      let server := deriveServer info
      match getEntry acc.1 info.fullname with
      | some existing =>
          if existing ≠ server then (replaceEntry acc.1 info.fullname server, true)
          else acc
      | none => (acc.1 ++ [(info.fullname, server)], true)
  | ServiceEvent.serviceRemoved _ fullname => (removeEntry acc.1 fullname, true)
  | ServiceEvent.other => acc

/-- `update_discovered_servers` (src/lib.rs:187-244): drain every queued
event of the browse receiver, fold it into the map, and report whether this
cycle changed anything; `set_changed` on the public resource fires exactly
when the returned flag is `true` (at most once per cycle). -/
def update_discovered_servers (events : List ServiceEvent) (servers : ServerMap) :
    ServerMap × Bool :=
  events.foldl applyEvent (servers, false)

theorem applyEvent_flag_mono (acc : ServerMap × Bool) (ev : ServiceEvent)
    (h : acc.2 = true) : (applyEvent acc ev).2 = true := by
  cases ev with
  | serviceResolved info =>
    simp only [applyEvent]
    cases getEntry acc.1 info.fullname with
    | some existing =>
      by_cases he : existing ≠ deriveServer info
      · simp [he]
      · simp [he, h]
    | none => simp
  | serviceRemoved ty fn => simp [applyEvent]
  | other => simpa [applyEvent] using h

theorem foldl_applyEvent_flag_mono (events : List ServiceEvent)
    (acc : ServerMap × Bool) (h : acc.2 = true) :
    (events.foldl applyEvent acc).2 = true := by
  induction events generalizing acc with
  | nil => simpa using h
  | cons ev rest ih =>
    simp only [List.foldl_cons]
    exact ih _ (applyEvent_flag_mono acc ev h)

/-- A drain step that leaves the changed flag clear is the identity on the
accumulator: only the occupied-and-equal and ignored-event branches keep the
flag clear, and both return the accumulator unchanged. -/
theorem applyEvent_of_flag_false (acc : ServerMap × Bool) (ev : ServiceEvent)
    (h : (applyEvent acc ev).2 = false) : applyEvent acc ev = acc := by
  cases ev with
  | serviceResolved info =>
    cases hg : getEntry acc.1 info.fullname with
    | some existing =>
      by_cases he : existing = deriveServer info
      · simp [applyEvent, hg, he]
      · simp [applyEvent, hg, he] at h
    | none => simp [applyEvent, hg] at h
  | serviceRemoved ty fn => simp [applyEvent] at h
  | other => rfl

theorem foldl_applyEvent_flag_false (events : List ServiceEvent)
    (acc : ServerMap × Bool) (h : (events.foldl applyEvent acc).2 = false) :
    events.foldl applyEvent acc = acc := by
  induction events generalizing acc with
  | nil => rfl
  | cons ev rest ih =>
    simp only [List.foldl_cons] at h ⊢
    have hstep : (applyEvent acc ev).2 = false := by
      cases hb : (applyEvent acc ev).2
      · rfl
      · rw [foldl_applyEvent_flag_mono rest _ hb] at h
        exact absurd h (by simp)
    rw [applyEvent_of_flag_false acc ev hstep] at h ⊢
    exact ih acc h

/-- Resolving an already-stored identical record is a no-op: the map and the
changed flag are both left untouched. -/
theorem resolved_noop (info : ResolvedInfo) (m : ServerMap)
    (h : getEntry m info.fullname = some (deriveServer info)) :
    update_discovered_servers [ServiceEvent.serviceResolved info] m = (m, false) := by
  simp [update_discovered_servers, applyEvent, h]

/-- After draining a `ServiceResolved(info)` event the map stores the derived
record under the event's unmodified fully-qualified name. -/
theorem resolved_stores (info : ResolvedInfo) (m : ServerMap) :
    getEntry (update_discovered_servers [ServiceEvent.serviceResolved info] m).1
      info.fullname = some (deriveServer info) := by
  simp only [update_discovered_servers, List.foldl_cons, List.foldl_nil]
  cases hg : getEntry m info.fullname with
  | some existing =>
    by_cases he : existing = deriveServer info
    · simp [applyEvent, hg, he]
    · simp only [applyEvent, hg, ne_eq, he, not_false_iff, if_true]
      exact getEntry_replaceEntry_self m info.fullname _ _ hg
  | none =>
    simp only [applyEvent, hg]
    rw [getEntry_append_of_none m _ _ hg]
    simp [getEntry]

/-! ### The registration manager (`register_server` / `unregister_server`) -/

/-- The service-type string built by `search_servers` (src/lib.rs:262):
`format!("_\x7b\x7d._udp.local.", service.name)`. -/
def searchServiceType (name : List Nat) : List Nat :=
  asciiBytes "_" ++ name ++ asciiBytes "._udp.local."

/-- The service-type string built by `register_server` (src/lib.rs:294):
`format!("_\x7b\x7d._udp.local.", service.name)`. -/
def registerServiceType (name : List Nat) : List Nat :=
  asciiBytes "_" ++ name ++ asciiBytes "._udp.local."

/-- The `DiscoverableServer` resource (src/lib.rs:30-40). -/
structure DiscoverableServerRes where
  port : Nat
  metadata : Finmap fun _ : String => String
  deriving DecidableEq

/-- Environment supplied by the OS and the external `mdns_sd` crate:
the process id (`std::process::id`), the local host name
(`gethostname::gethostname`), and the fully-qualified name computed by
`ServiceInfo::new(...).get_fullname()` from the instance name and the
service type. -/
structure MdnsEnv where
  pid : String
  host : String
  fullnameOf : String → List Nat → String

/-- Calls issued to the mDNS daemon. -/
inductive TransportCall
  | register (serviceType : List Nat) (instanceName hostName : String)
      (port : Nat) (metadata : Finmap fun _ : String => String) (fullname : String)
  | unregister (fullname : String)
  | browse (serviceType : List Nat)
  deriving DecidableEq

/-- One run of the `register_server` system (src/lib.rs:293-316): build the
service info (service type from the validated name, instance name from the
process id, hostname suffixed with `".local."`), issue a `register` call,
and return the fully-qualified name that is then cached in the
`ServiceFullname` resource. -/
def register_server (env : MdnsEnv) (serviceName : List Nat)
    (server : DiscoverableServerRes) : List TransportCall × String :=
  let service_type := registerServiceType serviceName
  let instance_name := env.pid
  let service_hostname := env.host ++ ".local."
  let service_fullname := env.fullnameOf instance_name service_type
  ([TransportCall.register service_type instance_name service_hostname
      server.port server.metadata service_fullname], service_fullname)

/-- One run of the `unregister_server` system (src/lib.rs:286-291): issue an
`unregister` call with the cached fully-qualified name. -/
def unregister_server (cached : String) : List TransportCall :=
  [TransportCall.unregister cached]

/-- What happened to the `DiscoverableServer` resource during one frame, as
distinguished by the run conditions wired in `ServerBrowserPlugin::build`
(src/lib.rs:153-162): `register_server` runs iff the resource exists and was
added or changed (`resource_exists_and_changed`); `unregister_server` runs
iff the resource was removed and a `ServiceFullname` is cached
(`resource_removed` and `resource_exists::<ServiceFullname>`). -/
inductive RecordAction
  | replaced (server : DiscoverableServerRes)
  | removed
  | idle

/-- The registration-related part of one `PreUpdate` schedule run: the state
is the cached `ServiceFullname` resource (`none` = resource absent), the
result is the new cached name and the transport calls issued this frame.
Note that `unregister_server` does not remove the `ServiceFullname`
resource, so the cached name survives an unregistration. -/
def registrationCycle (env : MdnsEnv) (serviceName : List Nat)
    (action : RecordAction) (cached : Option String) :
    Option String × List TransportCall :=
  match action with
  | RecordAction.replaced server =>
      let result := register_server env serviceName server
      (some result.2, result.1)
  | RecordAction.removed =>
      match cached with
      | some c => (cached, unregister_server c)
      | none => (cached, [])
  | RecordAction.idle => (cached, [])

/-! ### The discovery session (`search_servers`) -/

/-- One run of the `search_servers` system (src/lib.rs:246-269).  `signals`
is the number of `SearchServers` events queued this cycle; the whole queue
is cleared in one call.  `newSession` stands for the receiver returned by
`daemon.browse`, represented by the list of events it will deliver; the
previous `Searching` resource is dropped and replaced by it.  When no signal
is queued the system returns immediately. -/
def search_servers (signals : Nat) (serviceName : List Nat)
    (newSession : List ServiceEvent) (servers : ServerMap)
    (session : Option (List ServiceEvent)) :
    ServerMap × Option (List ServiceEvent) × List TransportCall :=
  if signals = 0 then (servers, session, [])
  else
    let servers := if servers.isEmpty then servers else []
    (servers, some newSession, [TransportCall.browse (searchServiceType serviceName)])

/-- One full schedule cycle of the discovery side: `search_servers` runs in
`PreUpdate`, then `update_discovered_servers` runs in `PostUpdate` when a
`Searching` resource exists (src/lib.rs:153-169), draining that session's
queued events.  Returns the final map, the changed flag, and the transport
calls issued. -/
def discoveryCycle (signals : Nat) (serviceName : List Nat)
    (newSession : List ServiceEvent) (servers : ServerMap)
    (session : Option (List ServiceEvent)) :
    ServerMap × Bool × List TransportCall :=
  let step := search_servers signals serviceName newSession servers session
  match step.2.1 with
  | some events =>
      let result := update_discovered_servers events step.1
      (result.1, result.2, step.2.2)
  | none => (step.1, false, step.2.2)

/-! ### `ServerMetadata` (src/server_metadata.rs) -/

/-- The `ServerMetadata` container (src/server_metadata.rs:11), a
`StableHashMap<String, String>` embedded as an association list in a
deterministic order. -/
abbrev Metadata := List (String × String)

/-- `ServerMetadata::get` (src/server_metadata.rs:34-36). -/
abbrev metadataGet (m : Metadata) (k : String) : Option String := getEntry m k

/-- `ServerMetadata::set` (src/server_metadata.rs:39-41):
`entry_ref(key).insert(value.to_string())`.  The `ToString` conversion of
the value happens at the call site; the stored value is its string form. -/
abbrev metadataSet (m : Metadata) (k v : String) : Metadata := setEntry m k v

/-- `ServerMetadata::with` (src/server_metadata.rs:51-54): `set` followed by
returning `self`. -/
abbrev metadataWith (m : Metadata) (k v : String) : Metadata := metadataSet m k v

/-- The derived `PartialEq` of `ServerMetadata`
(src/server_metadata.rs:10-11), which is the content equality of the
backing hashbrown `HashMap`: equal lengths, and every entry of the left map
present with an equal value in the right map. -/
def metadataEq (m1 m2 : Metadata) : Bool :=
  (m1.length == m2.length) &&
    m1.all fun kv => metadataGet m2 kv.1 == some kv.2

theorem getEntry_setEntry_self {β : Type} (m : List (String × β)) (k : String) (v : β) :
    getEntry (setEntry m k v) k = some v := by
  induction m with
  | nil => simp [setEntry, getEntry]
  | cons kv rest ih =>
    obtain ⟨kh, vh⟩ := kv
    by_cases hk : kh = k
    · simp [setEntry, getEntry, hk]
    · simp [setEntry, getEntry, hk, ih]

theorem getEntry_setEntry_ne {β : Type} (m : List (String × β)) (k kx : String)
    (v : β) (h : kx ≠ k) :
    getEntry (setEntry m k v) kx = getEntry m kx := by
  induction m with
  | nil => simp [setEntry, getEntry, Ne.symm h]
  | cons kv rest ih =>
    obtain ⟨kh, vh⟩ := kv
    by_cases hk : kh = k
    · subst hk
      simp [setEntry, getEntry, Ne.symm h]
    · by_cases hx : kh = kx
      · simp [setEntry, getEntry, hk, hx, h]
      · simp [setEntry, getEntry, hk, hx, ih]

/-- Two association lists with duplicate-free keys, with the keys of the
first all among the keys of the second and equal lengths, have the same key
set. -/
theorem mem_keys_of_subset_of_length_eq {β : Type} {m1 m2 : List (String × β)}
    (h1 : (m1.map Prod.fst).Nodup) (h2 : (m2.map Prod.fst).Nodup)
    (hsub : ∀ k, k ∈ m1.map Prod.fst → k ∈ m2.map Prod.fst)
    (hlen : m1.length = m2.length) :
    ∀ k, k ∈ m2.map Prod.fst → k ∈ m1.map Prod.fst := by
  intro k hk
  have hsubf : (m1.map Prod.fst).toFinset ⊆ (m2.map Prod.fst).toFinset := by
    intro a ha
    rw [List.mem_toFinset] at ha ⊢
    exact hsub a ha
  have hcard : (m2.map Prod.fst).toFinset.card ≤ (m1.map Prod.fst).toFinset.card := by
    rw [List.toFinset_card_of_nodup h1, List.toFinset_card_of_nodup h2]
    simp [hlen]
  have heq : (m1.map Prod.fst).toFinset = (m2.map Prod.fst).toFinset :=
    Finset.eq_of_subset_of_card_le hsubf hcard
  rw [← List.mem_toFinset, ← heq, List.mem_toFinset] at hk
  exact hk

/-! ### Claims -/

/-- C5: for every input whose underscore-to-hyphen normalization is empty,
exceeds 15 bytes, starts or ends with a hyphen, contains a doubled hyphen,
contains a byte outside `[A-Za-z0-9_-]`, or contains no ASCII letter,
`validate_name` fails (one of its asserts panics) and returns no value. -/
theorem validate_name_rejects_invalid (s : List Nat)
    (h : normalizeName s = [] ∨
      15 < (normalizeName s).length ∨
      (normalizeName s).head? = some 0x2D ∨
      (normalizeName s).getLast? = some 0x2D ∨
      [0x2D, 0x2D] <:+: normalizeName s ∨
      (∃ b ∈ normalizeName s,
        ¬(isAsciiAlphanumeric b = true ∨ b = 0x2D ∨ b = 0x5F)) ∨
      (∀ b ∈ normalizeName s, isAsciiAlphabetic b = false)) :
    validate_name s = none := by
  cases hv : validate_name s with
  | none => rfl
  | some t =>
    obtain ⟨-, h1, h2, h3, h4, h5, h6, h7⟩ := (validate_name_eq_some_iff s t).mp hv
    rcases h with h0 | h0 | h0 | h0 | h0 | ⟨b, hb, hbad⟩ | h0
    · exact absurd (by simp [h0]) h5
    · exact absurd h0 h4
    · exact absurd h0 h1
    · exact absurd h0 h2
    · exact absurd h0 h3
    · have hgood := List.all_eq_true.mp h6 b hb
      rw [Bool.or_eq_true, decide_eq_true_eq] at hgood
      rcases hgood with hg | hg
      · exact (hbad (Or.inl hg)).elim
      · exact (hbad (Or.inr (Or.inl hg))).elim
    · obtain ⟨b, hb, hba⟩ := List.any_eq_true.mp h7
      rw [h0 b hb] at hba
      exact (Bool.false_ne_true hba).elim

/-- C5 witness: the spec's example `"-bad"` (which starts with a hyphen)
fails validation. -/
theorem validate_name_rejects_invalid_witness :
    validate_name (asciiBytes "-bad") = none :=
  validate_name_rejects_invalid (asciiBytes "-bad")
    (Or.inr (Or.inr (Or.inl (by decide))))

/-- C6: every input that normalizes to a 1-to-15-byte string of ASCII
alphanumerics and hyphens with at least one letter and no leading, trailing
or doubled hyphen validates successfully to its normalization, and
validation applied to its own output returns that output unchanged. -/
theorem validate_name_valid_idempotent (s : List Nat)
    (hlen1 : 1 ≤ (normalizeName s).length)
    (hlen2 : (normalizeName s).length ≤ 15)
    (hall : (normalizeName s).all
      (fun b => isAsciiAlphanumeric b || b = 0x2D) = true)
    (halpha : (normalizeName s).any isAsciiAlphabetic = true)
    (hhead : (normalizeName s).head? ≠ some 0x2D)
    (hlast : (normalizeName s).getLast? ≠ some 0x2D)
    (hdup : ¬ [0x2D, 0x2D] <:+: normalizeName s) :
    validate_name s = some (normalizeName s) ∧
      validate_name (normalizeName s) = some (normalizeName s) := by
  refine ⟨(validate_name_eq_some_iff s _).mpr
    ⟨rfl, hhead, hlast, hdup, by omega, by omega, hall, halpha⟩, ?_⟩
  apply (validate_name_eq_some_iff _ _).mpr
  rw [normalizeName_idem]
  exact ⟨rfl, hhead, hlast, hdup, by omega, by omega, hall, halpha⟩

/-- C6 witness: `"my_app"` normalizes to `"my-app"`, validates to it, and
`"my-app"` validates to itself. -/
theorem validate_name_valid_idempotent_witness :
    validate_name (asciiBytes "my_app") = some (normalizeName (asciiBytes "my_app")) ∧
      validate_name (normalizeName (asciiBytes "my_app")) =
        some (normalizeName (asciiBytes "my_app")) :=
  validate_name_valid_idempotent (asciiBytes "my_app")
    (by decide) (by decide) (by decide) (by decide) (by decide) (by decide) (by decide)

/-- C7: for every validated namespace, the browse path (src/lib.rs:262) and
the register path (src/lib.rs:294) build the identical service-type string,
of the literal form an underscore, the namespace, then `"._udp.local."`. -/
theorem service_type_paths_agree (s n : List Nat) (_h : validate_name s = some n) :
    registerServiceType n = searchServiceType n ∧
      searchServiceType n = asciiBytes "_" ++ n ++ asciiBytes "._udp.local." :=
  ⟨rfl, rfl⟩

/-- C7 witness: both the namespace `"my-app"` and the input `"my_app"`
(which validates to `"my-app"`) yield the service type
`"_my-app._udp.local."`. -/
theorem service_type_paths_agree_witness :
    (registerServiceType (asciiBytes "my-app") = searchServiceType (asciiBytes "my-app") ∧
      searchServiceType (asciiBytes "my-app") =
        asciiBytes "_" ++ asciiBytes "my-app" ++ asciiBytes "._udp.local.") ∧
    searchServiceType (asciiBytes "my-app") = asciiBytes "_my-app._udp.local." :=
  ⟨service_type_paths_agree (asciiBytes "my_app") (asciiBytes "my-app") (by decide),
    by decide⟩

theorem removed_mem_flag_true (events : List ServiceEvent) (acc : ServerMap × Bool)
    (ty fn : String) (hmem : ServiceEvent.serviceRemoved ty fn ∈ events) :
    (events.foldl applyEvent acc).2 = true := by
  induction events generalizing acc with
  | nil => simp at hmem
  | cons ev rest ih =>
    rcases List.mem_cons.mp hmem with h | h
    · subst h
      simp only [List.foldl_cons]
      exact foldl_applyEvent_flag_mono rest _ (by simp [applyEvent])
    · simp only [List.foldl_cons]
      exact ih _ h

/-- C1 (amended): over one cycle of `update_discovered_servers` the changed
notification fires at most once (the drain accumulates a single boolean and
calls `set_changed` once at the end, iff it is `true`).  If any event
altered the collection the notification fires (equivalently: a cycle whose
flag stays clear leaves the collection untouched).  However, the flag is
not exact: every `ServiceRemoved` event sets it unconditionally, even when
its key is absent from the collection and the removal is a no-op. -/
theorem update_changed_flag (events : List ServiceEvent) (m : ServerMap) :
    ((update_discovered_servers events m).2 = false →
      (update_discovered_servers events m).1 = m) ∧
    (∀ ty fn, ServiceEvent.serviceRemoved ty fn ∈ events →
      (update_discovered_servers events m).2 = true) := by
  constructor
  · intro h
    exact congrArg Prod.fst (foldl_applyEvent_flag_false events (m, false) h)
  · intro ty fn hmem
    exact removed_mem_flag_true events (m, false) ty fn hmem

/-- C1 counterexample: draining a single `ServiceRemoved` event whose key is
absent leaves the collection unchanged (still empty) and nevertheless sets
the changed flag, so the notification fires although no event altered the
peer collection — the claim's "if and only if" and its no-op clause fail. -/
theorem update_changed_flag_counterexample :
    (update_discovered_servers
        [ServiceEvent.serviceRemoved "_app._udp.local." "gone"] []).1 = [] ∧
      (update_discovered_servers
        [ServiceEvent.serviceRemoved "_app._udp.local." "gone"] []).2 = true :=
  ⟨rfl, rfl⟩

/-- C1 witness: the amended theorem applied to a one-removal cycle. -/
theorem update_changed_flag_witness :
    (update_discovered_servers
        [ServiceEvent.serviceRemoved "_demo._udp.local." "k0"] []).2 = true :=
  (update_changed_flag [ServiceEvent.serviceRemoved "_demo._udp.local." "k0"] []).2
    "_demo._udp.local." "k0" (by simp)

/-- C2 (amended): when the host replaces an existing `DiscoverableServer`
while a fullname is already cached (the Registered state), the frame issues
exactly one transport call — the new `register` — and overwrites the cached
handle; no `unregister` of the previous handle is issued (unregistration
happens only on a frame where the resource was removed). -/
theorem reregistration_only_registers (env : MdnsEnv) (name : List Nat)
    (server : DiscoverableServerRes) (old : String) :
    registrationCycle env name (RecordAction.replaced server) (some old) =
      (some (env.fullnameOf env.pid (registerServiceType name)),
        [TransportCall.register (registerServiceType name) env.pid
          (env.host ++ ".local.") server.port server.metadata
          (env.fullnameOf env.pid (registerServiceType name))]) := rfl

/-- C2 counterexample: replacing the record while Registered (cached handle
`"old-fullname"`) issues no `unregister` call at all, refuting the claim
that the old handle is unregistered before the new `register`. -/
theorem reregistration_only_registers_counterexample :
    ((registrationCycle ⟨"4242", "myhost", fun inst _ => inst⟩
        (asciiBytes "my-app") (RecordAction.replaced ⟨1234, ∅⟩)
        (some "old-fullname")).2.all fun c =>
      match c with
      | TransportCall.unregister _ => false
      | _ => true) = true := rfl

/-- C3: a `ServiceResolved` event whose derived record equals the record
stored under the event's fullname leaves the collection unchanged and does
not set the changed flag; and for any starting collection, draining the
same `ServiceResolved` event in a second cycle is a no-op on the collection
(and leaves that second cycle's flag clear). -/
theorem resolved_identical_idempotent (info : ResolvedInfo) (m : ServerMap)
    (h : getEntry m info.fullname = some (deriveServer info)) :
    update_discovered_servers [ServiceEvent.serviceResolved info] m = (m, false) ∧
    ∀ m' : ServerMap,
      update_discovered_servers [ServiceEvent.serviceResolved info]
        (update_discovered_servers [ServiceEvent.serviceResolved info] m').1 =
      ((update_discovered_servers [ServiceEvent.serviceResolved info] m').1, false) :=
  ⟨resolved_noop info m h,
    fun m' => resolved_noop info _ (resolved_stores info m')⟩

/-- C3 witness: re-resolving an already-stored identical record is a no-op. -/
theorem resolved_identical_idempotent_witness :
    update_discovered_servers
      [ServiceEvent.serviceResolved ⟨"1._app._udp.local.", "gamehost.local.", 7777, ∅, []⟩]
      [("1._app._udp.local.",
        deriveServer ⟨"1._app._udp.local.", "gamehost.local.", 7777, ∅, []⟩)] =
    ([("1._app._udp.local.",
        deriveServer ⟨"1._app._udp.local.", "gamehost.local.", 7777, ∅, []⟩)], false) :=
  (resolved_identical_idempotent
    ⟨"1._app._udp.local.", "gamehost.local.", 7777, ∅, []⟩
    [("1._app._udp.local.",
      deriveServer ⟨"1._app._udp.local.", "gamehost.local.", 7777, ∅, []⟩)]
    (by decide)).1

/-- C4: when at least one search signal is queued in a cycle, the whole
signal queue is consumed by the one `search_servers` run: the non-empty
peer collection is cleared before any event of the new browse session is
applied (the cycle's final map is the new session's events folded into the
empty map), and exactly one `browse` call is issued regardless of how many
signals were queued. -/
theorem search_clears_and_coalesces (signals : Nat) (serviceName : List Nat)
    (newSession : List ServiceEvent) (servers : ServerMap)
    (session : Option (List ServiceEvent))
    (hs : 1 ≤ signals) (hne : servers ≠ []) :
    (search_servers signals serviceName newSession servers session).1 = [] ∧
    (discoveryCycle signals serviceName newSession servers session).1 =
      (update_discovered_servers newSession []).1 ∧
    (discoveryCycle signals serviceName newSession servers session).2.2 =
      [TransportCall.browse (searchServiceType serviceName)] := by
  have h0 : ¬ signals = 0 := by omega
  have hemp : servers.isEmpty = false := by
    cases servers with
    | nil => exact absurd rfl hne
    | cons kv rest => rfl
  refine ⟨?_, ?_, ?_⟩
  · simp [search_servers, h0, hemp]
  · simp [discoveryCycle, search_servers, h0, hemp]
  · simp [discoveryCycle, search_servers, h0, hemp]

/-- C4 witness: two queued signals, a one-entry collection: the collection
is cleared, the cycle folds the (empty) new session into the empty map, and
one browse call is issued. -/
theorem search_clears_and_coalesces_witness :
    (search_servers 2 (asciiBytes "app") [] [("k", ⟨"h", 1, ∅, ∅⟩)] none).1 = [] ∧
    (discoveryCycle 2 (asciiBytes "app") [] [("k", ⟨"h", 1, ∅, ∅⟩)] none).1 =
      (update_discovered_servers [] []).1 ∧
    (discoveryCycle 2 (asciiBytes "app") [] [("k", ⟨"h", 1, ∅, ∅⟩)] none).2.2 =
      [TransportCall.browse (searchServiceType (asciiBytes "app"))] :=
  search_clears_and_coalesces 2 (asciiBytes "app") [] [("k", ⟨"h", 1, ∅, ∅⟩)] none
    (by decide) (by simp)

/-- When the string ends with the suffix, `strip_suffix` returns the prefix
whose concatenation with the suffix restores the original string. -/
theorem strip_suffix_append (s suffix : String)
    (h : suffix.data.isSuffixOf s.data = true) :
    ∃ t, strip_suffix s suffix = some t ∧ t ++ suffix = s := by
  have hsuf : suffix.data <:+ s.data := List.isSuffixOf_iff_suffix.mp h
  obtain ⟨t, ht⟩ := hsuf
  refine ⟨String.mk (s.data.take (s.data.length - suffix.data.length)), ?_, ?_⟩
  · simp [strip_suffix, h]
  · apply String.ext
    rw [String.data_append]
    show s.data.take (s.data.length - suffix.data.length) ++ suffix.data = s.data
    have hlen : s.data.length - suffix.data.length = t.length := by
      rw [← ht]
      simp
    rw [hlen, ← ht, List.take_left]

/-- C8: the record derived from a `ServiceResolved` event has as display
hostname the event's hostname with one trailing `".local."` stripped when
present (and the hostname unchanged otherwise), while the record is stored
in the collection under the event's unmodified fully-qualified name. -/
theorem derive_hostname_and_key (info : ResolvedInfo) (m : ServerMap) :
    ((".local.".data.isSuffixOf info.hostname.data = true →
        (deriveServer info).hostname ++ ".local." = info.hostname) ∧
      (".local.".data.isSuffixOf info.hostname.data = false →
        (deriveServer info).hostname = info.hostname)) ∧
    getEntry (update_discovered_servers [ServiceEvent.serviceResolved info] m).1
      info.fullname = some (deriveServer info) := by
  refine ⟨⟨?_, ?_⟩, resolved_stores info m⟩
  · intro h
    obtain ⟨t, hsome, happ⟩ := strip_suffix_append info.hostname ".local." h
    have hh : (deriveServer info).hostname = t := by
      simp [deriveServer, hsome]
    rw [hh, happ]
  · intro h
    simp [deriveServer, strip_suffix, h]

/-- C8 witness: a hostname ending in `".local."` is stripped for display
and the record is stored under the unmodified fullname. -/
theorem derive_hostname_and_key_witness :
    (deriveServer ⟨"7._game._udp.local.", "myhost.local.", 9000, ∅, []⟩).hostname
        ++ ".local." = "myhost.local." ∧
    getEntry (update_discovered_servers
        [ServiceEvent.serviceResolved
          ⟨"7._game._udp.local.", "myhost.local.", 9000, ∅, []⟩] []).1
        "7._game._udp.local." =
      some (deriveServer ⟨"7._game._udp.local.", "myhost.local.", 9000, ∅, []⟩) :=
  ⟨(derive_hostname_and_key
      ⟨"7._game._udp.local.", "myhost.local.", 9000, ∅, []⟩ []).1.1 (by decide),
    (derive_hostname_and_key
      ⟨"7._game._udp.local.", "myhost.local.", 9000, ∅, []⟩ []).2⟩

/-- C9: the derived `PartialEq` of `ServerMetadata` relates two maps (with
duplicate-free keys, the container invariant) exactly when `get` agrees at
every key — i.e. the maps have the same key set and the same value for
every key.  The right-hand side never mentions entry order, so the equality
is independent of insertion and iteration order. -/
theorem metadata_eq_iff_same_entries (m1 m2 : Metadata)
    (h1 : (m1.map Prod.fst).Nodup) (h2 : (m2.map Prod.fst).Nodup) :
    metadataEq m1 m2 = true ↔ ∀ k, metadataGet m1 k = metadataGet m2 k := by
  constructor
  · intro h
    rw [metadataEq, Bool.and_eq_true, beq_iff_eq, List.all_eq_true] at h
    obtain ⟨hlen, hall⟩ := h
    have hall2 : ∀ kv, kv ∈ m1 → getEntry m2 kv.1 = some kv.2 := by
      intro kv hkv
      have := hall kv hkv
      rwa [beq_iff_eq] at this
    have hsub : ∀ k, k ∈ m1.map Prod.fst → k ∈ m2.map Prod.fst := by
      intro k hk
      rw [← getEntry_isSome_iff_mem_keys] at hk
      obtain ⟨v, hv⟩ := Option.isSome_iff_exists.mp hk
      rw [← getEntry_isSome_iff_mem_keys,
        hall2 (k, v) (getEntry_eq_some_mem hv)]
      rfl
    intro k
    show getEntry m1 k = getEntry m2 k
    cases hm : getEntry m1 k with
    | some v => exact (hall2 (k, v) (getEntry_eq_some_mem hm)).symm
    | none =>
      cases hg : getEntry m2 k with
      | none => rfl
      | some w =>
        have hk2 : k ∈ m2.map Prod.fst :=
          (getEntry_isSome_iff_mem_keys m2 k).mp (by simp [hg])
        have hk1 : k ∈ m1.map Prod.fst :=
          mem_keys_of_subset_of_length_eq h1 h2 hsub hlen k hk2
        rw [← getEntry_isSome_iff_mem_keys, hm] at hk1
        simp at hk1
  · intro h
    rw [metadataEq, Bool.and_eq_true, beq_iff_eq, List.all_eq_true]
    have hkeys : ∀ k, k ∈ m1.map Prod.fst ↔ k ∈ m2.map Prod.fst := by
      intro k
      rw [← getEntry_isSome_iff_mem_keys, ← getEntry_isSome_iff_mem_keys]
      have hh : getEntry m1 k = getEntry m2 k := h k
      rw [hh]
    constructor
    · have htf : (m1.map Prod.fst).toFinset = (m2.map Prod.fst).toFinset := by
        ext a
        rw [List.mem_toFinset, List.mem_toFinset]
        exact hkeys a
      have c1 := List.toFinset_card_of_nodup h1
      have c2 := List.toFinset_card_of_nodup h2
      rw [htf, c2] at c1
      simpa using c1.symm
    · intro kv hkv
      obtain ⟨k, v⟩ := kv
      rw [beq_iff_eq]
      have hget1 : getEntry m1 k = some v := getEntry_eq_some_of_mem h1 hkv
      have hh : getEntry m1 k = getEntry m2 k := h k
      show getEntry m2 k = some v
      rw [← hh]
      exact hget1

/-- C9 witness: two maps holding the same two entries in opposite orders
are equal under the derived `PartialEq` and agree at the key `"name"`. -/
theorem metadata_eq_iff_same_entries_witness :
    metadataGet [("name", "Srv"), ("map", "m1")] "name" =
      metadataGet [("map", "m1"), ("name", "Srv")] "name" :=
  (metadata_eq_iff_same_entries [("name", "Srv"), ("map", "m1")]
    [("map", "m1"), ("name", "Srv")] (by decide) (by decide)).mp (by decide) "name"

/-- C10: after `ServerMetadata::set` (or `with`, which is `set` returning
`self`), `get` at the written key returns the written value — overwriting
any previously stored value — and `get` at every other key is unchanged. -/
theorem metadata_set_get (m : Metadata) (k v kx : String) (hx : kx ≠ k) :
    metadataGet (metadataSet m k v) k = some v ∧
    metadataGet (metadataSet m k v) kx = metadataGet m kx ∧
    metadataWith m k v = metadataSet m k v :=
  ⟨getEntry_setEntry_self m k v, getEntry_setEntry_ne m k kx v hx, rfl⟩

/-- C10 witness: overwriting the present key `"name"` and checking the
untouched key `"map"`. -/
theorem metadata_set_get_witness :
    metadataGet (metadataSet [("name", "Old"), ("map", "m1")] "name" "New") "name" =
        some "New" ∧
    metadataGet (metadataSet [("name", "Old"), ("map", "m1")] "name" "New") "map" =
        metadataGet [("name", "Old"), ("map", "m1")] "map" ∧
    metadataWith [("name", "Old"), ("map", "m1")] "name" "New" =
        metadataSet [("name", "Old"), ("map", "m1")] "name" "New" :=
  metadata_set_get [("name", "Old"), ("map", "m1")] "name" "New" "map" (by decide)

end BevyServerBrowser
